import Mathlib

/-!
Verification of the cross-service provisioning orchestration described in
`spec.md` against the repository `ziling777/greptime`.

The repository's single source file, `src/cdk/s3table_cdk/s3table_cdk_stack.py`,
is a declarative stack definition: it declares resource nodes (buckets, roles,
custom resources carrying `Version`/`Timestamp` properties) and explicit
dependency edges (`node.add_dependency`).  The orchestration engine itself —
dependency graph, topological ordering, fingerprint-based change detection,
the `create`/`update`/`delete` dispatch and teardown — is the deployment
machinery the stack is fed to; it is not part of `src/`, so it is modelled
here from the spec (each such definition says so in its doc comment).  The
declared graph and the custom-operation declarations of the stack itself are
embedded from the source.
-/

/-- Modelled from the spec (§4.2, §6): the three verbs of the operation
handler contract. -/
inductive Verb
  | create
  | update
  | delete
deriving DecidableEq

/-- Modelled from the spec (§3 ApplyRecord): a record's status as persisted
by the orchestrator. -/
inductive RecStatus
  | applied
  | failed
deriving DecidableEq

/-- Modelled from the spec (§3 ApplyRecord): `id → (fingerprint, physicalId,
status)` from the last orchestration pass. -/
structure ApplyRecord where
  fingerprint : String
  physicalId : String
  status : RecStatus
deriving DecidableEq

/-- Modelled from the spec (§4.3): per-node status during an apply run. -/
inductive RunStatus
  | applied
  | failed
  | blocked
deriving DecidableEq

/-- A single handler call made by the engine: which node and which verb. -/
structure Invocation where
  nodeId : String
  verb : Verb
deriving DecidableEq

/-- Modelled from the spec (§3 ResourceNode, §3 Fingerprint): a declared
resource node.  `version` and `timestamp` are the explicit fields supplied by
the declarer (in the source they appear as the `Version` and `Timestamp`
entries of the custom resources' `properties`). -/
structure NodeDecl where
  id : String
  properties : List (String × String)
  version : String
  timestamp : String
  dependsOn : List String
deriving DecidableEq

/-- Association-list lookup keyed by node id (first binding wins; the engine
prepends to overwrite). -/
def slookup {α : Type} : List (String × α) → String → Option α
  | [], _ => none
  | p :: rest, id => if p.1 = id then some p.2 else slookup rest id

/-- Insert a property into a key-sorted property list (stable for equal keys). -/
def insertByKey (p : String × String) : List (String × String) → List (String × String)
  | [] => [p]
  | q :: qs => if p.1 ≤ q.1 then p :: q :: qs else q :: insertByKey p qs

/-- Modelled from the spec (§4.5): stable key ordering of the declared
properties before serialization. -/
def sortByKey (ps : List (String × String)) : List (String × String) :=
  ps.foldr insertByKey []

/-- Modelled from the spec (§4.5): deterministic serialization of the
properties with stable key ordering. -/
def renderProps (ps : List (String × String)) : String :=
  (sortByKey ps).foldr (fun p acc => p.1 ++ "=" ++ p.2 ++ ";" ++ acc) ""

/-- Modelled from the spec (§3 Fingerprint, §4.5): the fingerprint is the
deterministic serialization of `properties` concatenated with the `version`
field; the `timestamp` field is recorded on the node but excluded.  The hash
step is modelled as the identity on the serialization (a collision-free
digest), which is the property the spec assumes of it. -/
def fingerprint (n : NodeDecl) : String :=
  renderProps n.properties ++ "#" ++ n.version

/-- Handler oracle: for a node id and verb, `some payload` models a
successful external call (for `create`, the payload is the physical id);
`none` models failure. -/
def Handlers : Type := String → Verb → Option String

/-- Find a declared node by id. -/
def findNode (g : List NodeDecl) (id : String) : Option NodeDecl :=
  g.find? (fun n => n.id = id)

/-- Modelled from the spec (§4.1): Kahn-style topological ordering with ties
broken by original declaration order — at each step the first declared node
whose dependencies have all been emitted is emitted next. -/
def topoAux : Nat → List NodeDecl → List String → Option (List String)
  | 0, [], acc => some acc.reverse
  | 0, _ :: _, _ => none
  | _ + 1, [], acc => some acc.reverse
  | fuel + 1, r :: rs, acc =>
    match (r :: rs).find? (fun n => n.dependsOn.all (fun d => decide (d ∈ acc))) with
    | none => none
    | some n => topoAux fuel ((r :: rs).filter (fun m => decide (m.id ≠ n.id))) (n.id :: acc)

/-- Modelled from the spec (§4.1): `topologicalOrder()` — `none` models
`CycleError`. -/
def topologicalOrder (g : List NodeDecl) : Option (List String) :=
  topoAux g.length g []

/-- Scan-checker for a node sequence: each listed node's dependencies all lie
among the previously listed ids (or the initially `seen` ids).  This is the
"every id appears after all ids it depends on" property of §4.1. -/
def depsSeen (g : List NodeDecl) (seen : List String) : List String → Bool
  | [] => true
  | id :: rest =>
    (g.all fun n => if n.id = id then n.dependsOn.all (fun d => decide (d ∈ seen)) else true)
      && depsSeen g (id :: seen) rest

/-- State threaded through an apply run: the persistent `ApplyRecord` store,
the per-node run statuses, and the log of handler invocations made. -/
structure RunState where
  store : List (String × ApplyRecord)
  statuses : List (String × RunStatus)
  log : List Invocation
deriving DecidableEq

/-- Modelled from the spec (§4.3 step 4, create arm): call `create`; on
success store an `Applied` record with the new fingerprint and physical id;
on failure store a `Failed` record and mark the node `Failed`. -/
def applyCreate (h : Handlers) (σ : RunState) (id : String) (fp : String) : RunState :=
  match h id Verb.create with
  | some pid =>
      ⟨(id, ⟨fp, pid, RecStatus.applied⟩) :: σ.store,
       (id, RunStatus.applied) :: σ.statuses,
       σ.log ++ [⟨id, Verb.create⟩]⟩
  | none =>
      ⟨(id, ⟨fp, "", RecStatus.failed⟩) :: σ.store,
       (id, RunStatus.failed) :: σ.statuses,
       σ.log ++ [⟨id, Verb.create⟩]⟩

/-- Modelled from the spec (§4.3 steps 3-5): process one node.  If some
dependency is not `Applied`, the node is `Blocked` and no handler runs.
Otherwise dispatch on the prior record: none or `Failed` → `create`;
`Applied` with equal fingerprint → skip; `Applied` with differing
fingerprint → `update`. -/
def step (g : List NodeDecl) (h : Handlers) (σ : RunState) (id : String) : RunState :=
  match findNode g id with
  | none => σ
  | some n =>
    if n.dependsOn.all (fun d => decide (slookup σ.statuses d = some RunStatus.applied)) then
      match slookup σ.store id with
      | none => applyCreate h σ id (fingerprint n)
      | some rec =>
        match rec.status with
        | RecStatus.failed => applyCreate h σ id (fingerprint n)
        | RecStatus.applied =>
          if rec.fingerprint = fingerprint n then
            ⟨σ.store, (id, RunStatus.applied) :: σ.statuses, σ.log⟩
          else
            match h id Verb.update with
            | some _ =>
                ⟨(id, ⟨fingerprint n, rec.physicalId, RecStatus.applied⟩) :: σ.store,
                 (id, RunStatus.applied) :: σ.statuses,
                 σ.log ++ [⟨id, Verb.update⟩]⟩
            | none =>
                ⟨(id, ⟨rec.fingerprint, rec.physicalId, RecStatus.failed⟩) :: σ.store,
                 (id, RunStatus.failed) :: σ.statuses,
                 σ.log ++ [⟨id, Verb.update⟩]⟩
    else
      ⟨σ.store, (id, RunStatus.blocked) :: σ.statuses, σ.log⟩

/-- Walk a node sequence, applying `step` to each id in order. -/
def runNodes (g : List NodeDecl) (h : Handlers) : List String → RunState → RunState
  | [], σ => σ
  | id :: rest, σ => runNodes g h rest (step g h σ id)

/-- Initial run state over a persisted store: no statuses, empty log. -/
def initState (store : List (String × ApplyRecord)) : RunState :=
  ⟨store, [], []⟩

/-- Modelled from the spec (§7): the error taxonomy entry raised at
configuration time. -/
inductive OrchError
  | cycleError
deriving DecidableEq

/-- Modelled from the spec (§4.3): a full apply run — validate acyclicity
first (fail fast with `CycleError`, before any handler can run), then walk
the topological order. -/
def applyRun (g : List NodeDecl) (h : Handlers) (store : List (String × ApplyRecord)) :
    Except OrchError RunState :=
  match topologicalOrder g with
  | none => Except.error OrchError.cycleError
  | some order => Except.ok (runNodes g h order (initState store))

/-- Index of the first occurrence of a string in a list (length if absent). -/
def idxOf (x : String) : List String → Nat
  | [] => 0
  | y :: ys => if y = x then 0 else idxOf x ys + 1

/-- `EdgeTo g a b`: some declared node with id `a` depends directly on `b`. -/
def EdgeTo (g : List NodeDecl) (a b : String) : Prop :=
  ∃ n, n ∈ g ∧ n.id = a ∧ b ∈ n.dependsOn

/-- `DependsOn g b a`: node id `b` depends on `a` directly or transitively
through the declared `dependsOn` edges. -/
inductive DependsOn (g : List NodeDecl) : String → String → Prop
  | direct {n : NodeDecl} {d : String} : n ∈ g → d ∈ n.dependsOn → DependsOn g n.id d
  | tail {n : NodeDecl} {d a : String} :
      n ∈ g → d ∈ n.dependsOn → DependsOn g d a → DependsOn g n.id a

/-- Replace the `version` field of the node with the given id, leaving every
other declaration untouched (the "intentional bump" of §2/§4.5). -/
def bumpVersion (g : List NodeDecl) (kid v : String) : List NodeDecl :=
  g.map (fun n => if n.id = kid then ⟨n.id, n.properties, v, n.timestamp, n.dependsOn⟩ else n)

/-- Modelled from the spec (§4.4): per-node status during teardown. -/
inductive DStatus
  | deleted
  | failed
  | blocked
deriving DecidableEq

/-- State threaded through a destroy run. -/
structure DestroyState where
  store : List (String × ApplyRecord)
  dstatuses : List (String × DStatus)
  log : List Invocation
deriving DecidableEq

/-- Remove a node's record from the store. -/
def removeRec (s : List (String × ApplyRecord)) (id : String) : List (String × ApplyRecord) :=
  s.filter (fun p => decide (p.1 ≠ id))

/-- A dependent of `id` still holds an `ApplyRecord` (it has not been
deleted), so `id` itself cannot be torn down yet. -/
def hasDependentRecord (g : List NodeDecl) (s : List (String × ApplyRecord)) (id : String) : Bool :=
  g.any fun m => decide (id ∈ m.dependsOn) && (slookup s m.id).isSome

/-- Modelled from the spec (§4.4): teardown of one node.  A node whose
dependent's delete failed (its record is still present) is not attempted —
the failure stops that branch.  Otherwise, for a node with an `ApplyRecord`,
call `delete(physicalId)`: on success remove the record, on failure leave
the record and mark the node `Failed`.  A node without a record needs no
call. -/
def destroyStep (g : List NodeDecl) (h : Handlers) (σ : DestroyState) (id : String) :
    DestroyState :=
  if hasDependentRecord g σ.store id then
    ⟨σ.store, (id, DStatus.blocked) :: σ.dstatuses, σ.log⟩
  else
    match slookup σ.store id with
    | none => ⟨σ.store, (id, DStatus.deleted) :: σ.dstatuses, σ.log⟩
    | some rec =>
      match h id Verb.delete with
      | some _ =>
          ⟨removeRec σ.store id, (id, DStatus.deleted) :: σ.dstatuses,
           σ.log ++ [⟨id, Verb.delete⟩]⟩
      | none =>
          ⟨(id, ⟨rec.fingerprint, rec.physicalId, RecStatus.failed⟩) :: σ.store,
           (id, DStatus.failed) :: σ.dstatuses,
           σ.log ++ [⟨id, Verb.delete⟩]⟩

/-- Walk a node sequence, applying `destroyStep` to each id in order. -/
def runDestroy (g : List NodeDecl) (h : Handlers) : List String → DestroyState → DestroyState
  | [], σ => σ
  | id :: rest, σ => runDestroy g h rest (destroyStep g h σ id)

/-- Modelled from the spec (§4.4): a full destroy run walks the exact
reverse of the topological order. -/
def destroyRun (g : List NodeDecl) (h : Handlers) (store : List (String × ApplyRecord)) :
    Except OrchError DestroyState :=
  match topologicalOrder g with
  | none => Except.error OrchError.cycleError
  | some order => Except.ok (runDestroy g h order.reverse ⟨store, [], []⟩)

/-- The invocation log of a destroy run (empty when the run fails fast). -/
def destroyLog (g : List NodeDecl) (h : Handlers) (store : List (String × ApplyRecord)) :
    List Invocation :=
  match destroyRun g h store with
  | Except.error _ => []
  | Except.ok σ => σ.log

/-- The record store left by a destroy run. -/
def destroyStore (g : List NodeDecl) (h : Handlers) (store : List (String × ApplyRecord)) :
    List (String × ApplyRecord) :=
  match destroyRun g h store with
  | Except.error _ => store
  | Except.ok σ => σ.store

/-- An SDK call declared on an `AwsCustomResource` (embedded from the source:
service, action, and the fixed physical resource id). -/
structure AwsSdkCall where
  service : String
  action : String
  physicalResourceId : String
deriving DecidableEq

/-- The per-verb external actions an `AwsCustomResource` declares; a verb
with no declared call performs no external action. -/
structure AwsCustomResourceDecl where
  resourceId : String
  onCreate : Option AwsSdkCall
  onUpdate : Option AwsSdkCall
  onDelete : Option AwsSdkCall
deriving DecidableEq

/-- The external action a custom-resource declaration dispatches for a verb. -/
def actionFor (d : AwsCustomResourceDecl) : Verb → Option AwsSdkCall
  | Verb.create => d.onCreate
  | Verb.update => d.onUpdate
  | Verb.delete => d.onDelete

/-- Embedded from `src/cdk/s3table_cdk/s3table_cdk_stack.py` lines 461-516:
the `EMRServerlessJobRun` `AwsCustomResource` declares only `on_create`
(`EMRServerless.startJobRun` with fixed physical id `"EMRServerlessJobRun"`);
no `on_update` or `on_delete` call is declared. -/
def emr_job_custom_resource : AwsCustomResourceDecl :=
  ⟨"EMRServerlessJobRun",
   some ⟨"EMRServerless", "startJobRun", "EMRServerlessJobRun"⟩,
   none,
   none⟩

/-- Embedded from `src/cdk/s3table_cdk/s3table_cdk_stack.py`: the declared
nodes that participate in explicit `node.add_dependency` edges, in source
declaration order, with `dependsOn` listing exactly the explicit edges
(lines 266, 519-520, 666-668, 674, 677, 681, 713-714, 717).  Deploy-time
values (`Aws.REGION`, `Aws.ACCOUNT_ID`, `str(int(time.time()))`) are
placeholder strings; they do not affect the graph shape. -/
def stackGraph : List NodeDecl :=
  [⟨"EMRServerlessExecutionRole", [], "", "", []⟩,
   ⟨"S3TablesVpcEndpoint", [], "", "", []⟩,
   ⟨"DataProcessingEMRApp", [], "", "",
     ["S3TablesVpcEndpoint", "LakeFormationPermissionsResource"]⟩,
   ⟨"caredgedemo", [("tableBucketName", "caredgedemo")], "", "", []⟩,
   ⟨"S3TablesRoleForLakeFormationDemo", [], "", "", []⟩,
   ⟨"GlueCatalogCustomResourceRole", [], "", "", []⟩,
   ⟨"S3TablesCatalogResource",
     [("Region", "AWS_REGION"), ("AccountId", "AWS_ACCOUNT_ID")], "1.2", "DEPLOY_TIME",
     ["LakeFormationPermissionsResource", "LakeFormationResourceRegistration"]⟩,
   ⟨"DeployProcessScript", [], "", "", []⟩,
   ⟨"DeployJarFiles", [], "", "", []⟩,
   ⟨"EMRServerlessJobRun", [], "", "",
     ["DeployProcessScript", "DeployJarFiles", "LakeFormationPermissionsResource"]⟩,
   ⟨"LakeFormationResourceRole", [], "", "", []⟩,
   ⟨"LakeFormationPermissionsResource",
     [("RoleArns", "GlueCatalogCustomResourceRole,EMRServerlessExecutionRole,LakeFormationResourceRole")],
     "1.0", "DEPLOY_TIME",
     ["GlueCatalogCustomResourceRole", "EMRServerlessExecutionRole", "LakeFormationResourceRole"]⟩,
   ⟨"LakeFormationResourceRegistration",
     [("ResourceArn", "arn:aws:s3tables:AWS_REGION:AWS_ACCOUNT_ID:bucket/caredgedemo"),
      ("ResourceRoleArn", "S3TablesRoleForLakeFormationDemo")], "1.0", "DEPLOY_TIME",
     ["S3TablesRoleForLakeFormationDemo", "LakeFormationPermissionsResource"]⟩]

/-- A witnessing sequence over `stackGraph` that lists the catalog
registration before the table bucket. -/
def stackOrderEx : List String :=
  ["EMRServerlessExecutionRole", "S3TablesVpcEndpoint",
   "S3TablesRoleForLakeFormationDemo", "GlueCatalogCustomResourceRole",
   "LakeFormationResourceRole", "LakeFormationPermissionsResource",
   "DataProcessingEMRApp", "LakeFormationResourceRegistration",
   "S3TablesCatalogResource", "caredgedemo",
   "DeployProcessScript", "DeployJarFiles", "EMRServerlessJobRun"]

/-- Handler oracle that always succeeds, returning payload `"p"`. -/
def hOk : Handlers := fun _ _ => some "p"

/-- Handler oracle that fails every call for node `"A"` and succeeds elsewhere. -/
def hFailA : Handlers := fun id _ => if id = "A" then none else some "p"

/-- Handler oracle that fails every call for node `"B"` and succeeds elsewhere. -/
def hFailB : Handlers := fun id _ => if id = "B" then none else some "p"

/-- Example two-node graph: `"b"` depends on `"a"`. -/
def g2w : List NodeDecl :=
  [⟨"a", [("p", "1")], "1", "t1", []⟩, ⟨"b", [("q", "2")], "1", "t2", ["a"]⟩]

/-- Example three-node graph with a declaration-order tie between `"A"` and `"B"`. -/
def gEx3 : List NodeDecl :=
  [⟨"A", [], "1", "t", []⟩, ⟨"B", [], "1", "t", []⟩, ⟨"C", [], "1", "t", ["A", "B"]⟩]

/-- Example one-node graph. -/
def g4w : List NodeDecl := [⟨"a", [("k", "v")], "1", "t", []⟩]

/-- Example chain: `"B"` depends on `"A"`. -/
def g5w : List NodeDecl := [⟨"A", [], "1", "t", []⟩, ⟨"B", [], "1", "t", ["A"]⟩]

/-- Example cyclic graph: `"a"` and `"b"` depend on each other. -/
def gCyc : List NodeDecl := [⟨"a", [], "1", "t", ["b"]⟩, ⟨"b", [], "1", "t", ["a"]⟩]

/-- Example three-node dependency chain `A → B → C` (`B` depends on `A`, `C` on `B`). -/
def gABC : List NodeDecl :=
  [⟨"A", [], "1", "t", []⟩, ⟨"B", [], "1", "t", ["A"]⟩, ⟨"C", [], "1", "t", ["B"]⟩]

/-- Store holding an `Applied` record for each node of `gABC`. -/
def storeABC : List (String × ApplyRecord) :=
  [("A", ⟨"fA", "pA", RecStatus.applied⟩), ("B", ⟨"fB", "pB", RecStatus.applied⟩),
   ("C", ⟨"fC", "pC", RecStatus.applied⟩)]

/-- Example graph for the version-bump scenario. -/
def g8w : List NodeDecl :=
  [⟨"a", [("k", "v")], "1", "t", []⟩, ⟨"b", [("m", "w")], "1", "t", ["a"]⟩]

/-- Store matching `g8w`'s fingerprints, as left by a successful apply. -/
def store8w : List (String × ApplyRecord) :=
  [("a", ⟨fingerprint ⟨"a", [("k", "v")], "1", "t", []⟩, "pa", RecStatus.applied⟩),
   ("b", ⟨fingerprint ⟨"b", [("m", "w")], "1", "t", ["a"]⟩, "pb", RecStatus.applied⟩)]

theorem fingerprint_eq_of_props_version {n₁ n₂ : NodeDecl}
    (hp : n₁.properties = n₂.properties) (hv : n₁.version = n₂.version) :
    fingerprint n₁ = fingerprint n₂ := by
  simp [fingerprint, hp, hv]

example : fingerprint ⟨"x", [("k", "v")], "1", "111", []⟩
    = fingerprint ⟨"x", [("k", "v")], "1", "222", []⟩ := rfl

example : topologicalOrder [⟨"a", [], "1", "t", []⟩, ⟨"b", [], "1", "t", ["a"]⟩]
    = some ["a", "b"] := rfl

example : topologicalOrder [⟨"a", [], "1", "t", ["b"]⟩, ⟨"b", [], "1", "t", ["a"]⟩]
    = none := rfl

example : depsSeen stackGraph [] stackOrderEx = true := by decide

example : idxOf "S3TablesCatalogResource" stackOrderEx < idxOf "caredgedemo" stackOrderEx := by
  decide

theorem topoAux_acc_shape (fuel : Nat) :
    ∀ (remaining : List NodeDecl) (acc out : List String),
    topoAux fuel remaining acc = some out → ∃ tail, out = acc.reverse ++ tail := by
  induction fuel with
  | zero =>
    intro remaining acc out h
    cases remaining with
    | nil =>
      simp only [topoAux, Option.some.injEq] at h
      exact ⟨[], by simp [h.symm]⟩
    | cons r rs => simp [topoAux] at h
  | succ fuel ih =>
    intro remaining acc out h
    cases remaining with
    | nil =>
      simp only [topoAux, Option.some.injEq] at h
      exact ⟨[], by simp [h.symm]⟩
    | cons r rs =>
      rw [topoAux] at h
      cases hf : (r :: rs).find? (fun n => n.dependsOn.all (fun d => decide (d ∈ acc))) with
      | none => rw [hf] at h; simp at h
      | some n =>
        rw [hf] at h
        obtain ⟨tail, ht⟩ := ih _ _ _ h
        exact ⟨n.id :: tail, by simp [ht]⟩

theorem topoAux_depsSeen (g : List NodeDecl) (hnd : (g.map NodeDecl.id).Nodup) (fuel : Nat) :
    ∀ (remaining : List NodeDecl) (acc out : List String),
    (∀ m ∈ remaining, m ∈ g) →
    topoAux fuel remaining acc = some out →
    ∃ tail, out = acc.reverse ++ tail ∧ depsSeen g acc tail = true := by
  induction fuel with
  | zero =>
    intro remaining acc out hsub h
    cases remaining with
    | nil =>
      simp only [topoAux, Option.some.injEq] at h
      exact ⟨[], by simp [h.symm], rfl⟩
    | cons r rs => simp [topoAux] at h
  | succ fuel ih =>
    intro remaining acc out hsub h
    cases remaining with
    | nil =>
      simp only [topoAux, Option.some.injEq] at h
      exact ⟨[], by simp [h.symm], rfl⟩
    | cons r rs =>
      rw [topoAux] at h
      cases hf : (r :: rs).find? (fun n => n.dependsOn.all (fun d => decide (d ∈ acc))) with
      | none => rw [hf] at h; simp at h
      | some n =>
        rw [hf] at h
        have hnmem : n ∈ r :: rs := List.mem_of_find?_eq_some hf
        have hng : n ∈ g := hsub n hnmem
        have hready : n.dependsOn.all (fun d => decide (d ∈ acc)) = true := by
          simpa using List.find?_some hf
        have hsub' : ∀ m ∈ (r :: rs).filter (fun m => decide (m.id ≠ n.id)), m ∈ g :=
          fun m hm => hsub m (List.mem_of_mem_filter hm)
        obtain ⟨tail, ht, hds⟩ := ih _ _ _ hsub' h
        refine ⟨n.id :: tail, by simp [ht], ?_⟩
        rw [depsSeen, Bool.and_eq_true]
        refine ⟨?_, hds⟩
        rw [List.all_eq_true]
        intro m hm
        by_cases hmid : m.id = n.id
        · have : m = n := List.inj_on_of_nodup_map hnd hm hng hmid
          subst this
          simp [hmid, hready]
        · simp [hmid]

theorem topoAux_complete (fuel : Nat) :
    ∀ (remaining : List NodeDecl) (acc out : List String),
    topoAux fuel remaining acc = some out →
    ∀ m ∈ remaining, m.id ∈ out := by
  induction fuel with
  | zero =>
    intro remaining acc out h
    cases remaining with
    | nil => simp
    | cons r rs => simp [topoAux] at h
  | succ fuel ih =>
    intro remaining acc out h
    cases remaining with
    | nil => simp
    | cons r rs =>
      rw [topoAux] at h
      cases hf : (r :: rs).find? (fun n => n.dependsOn.all (fun d => decide (d ∈ acc))) with
      | none => rw [hf] at h; simp at h
      | some n =>
        rw [hf] at h
        intro m hm
        by_cases hmid : m.id = n.id
        · obtain ⟨tail, ht⟩ := topoAux_acc_shape _ _ _ _ h
          rw [hmid, ht]
          simp
        · exact ih _ _ _ h m (List.mem_filter.mpr ⟨hm, by simp [hmid]⟩)

theorem topoAux_ids (fuel : Nat) :
    ∀ (remaining : List NodeDecl) (acc out : List String),
    topoAux fuel remaining acc = some out →
    ∀ id ∈ out, id ∈ acc ∨ ∃ n, n ∈ remaining ∧ n.id = id := by
  induction fuel with
  | zero =>
    intro remaining acc out h
    cases remaining with
    | nil =>
      simp only [topoAux, Option.some.injEq] at h
      intro id hid
      exact Or.inl (by rw [← h] at hid; exact List.mem_reverse.mp hid)
    | cons r rs => simp [topoAux] at h
  | succ fuel ih =>
    intro remaining acc out h
    cases remaining with
    | nil =>
      simp only [topoAux, Option.some.injEq] at h
      intro id hid
      exact Or.inl (by rw [← h] at hid; exact List.mem_reverse.mp hid)
    | cons r rs =>
      rw [topoAux] at h
      cases hf : (r :: rs).find? (fun n => n.dependsOn.all (fun d => decide (d ∈ acc))) with
      | none => rw [hf] at h; simp at h
      | some n =>
        rw [hf] at h
        intro id hid
        rcases ih _ _ _ h id hid with hacc | ⟨m, hm, hmid⟩
        · rcases List.mem_cons.mp hacc with heq | hacc'
          · exact Or.inr ⟨n, List.mem_of_find?_eq_some hf, heq.symm⟩
          · exact Or.inl hacc'
        · exact Or.inr ⟨m, List.mem_of_mem_filter hm, hmid⟩

theorem topoAux_nodup (fuel : Nat) :
    ∀ (remaining : List NodeDecl) (acc out : List String),
    (remaining.map NodeDecl.id).Nodup → acc.Nodup →
    (∀ m ∈ remaining, m.id ∉ acc) →
    topoAux fuel remaining acc = some out → out.Nodup := by
  induction fuel with
  | zero =>
    intro remaining acc out hnr hna hdisj h
    cases remaining with
    | nil =>
      simp only [topoAux, Option.some.injEq] at h
      rw [← h]
      exact List.nodup_reverse.mpr hna
    | cons r rs => simp [topoAux] at h
  | succ fuel ih =>
    intro remaining acc out hnr hna hdisj h
    cases remaining with
    | nil =>
      simp only [topoAux, Option.some.injEq] at h
      rw [← h]
      exact List.nodup_reverse.mpr hna
    | cons r rs =>
      rw [topoAux] at h
      cases hf : (r :: rs).find? (fun n => n.dependsOn.all (fun d => decide (d ∈ acc))) with
      | none => rw [hf] at h; simp at h
      | some n =>
        rw [hf] at h
        have hnmem : n ∈ r :: rs := List.mem_of_find?_eq_some hf
        refine ih _ _ _ ?_ ?_ ?_ h
        · exact List.Nodup.sublist (List.Sublist.map NodeDecl.id (List.filter_sublist _)) hnr
        · exact List.nodup_cons.mpr ⟨hdisj n hnmem, hna⟩
        · intro m hm
          have hmmem := List.mem_of_mem_filter hm
          have hmne : m.id ≠ n.id := by
            have := (List.mem_filter.mp hm).2
            simpa using this
          intro hcon
          rcases List.mem_cons.mp hcon with heq | hacc
          · exact hmne heq
          · exact hdisj m hmmem hacc

theorem order_depsSeen {g : List NodeDecl} {order : List String}
    (hnd : (g.map NodeDecl.id).Nodup) (h : topologicalOrder g = some order) :
    depsSeen g [] order = true := by
  obtain ⟨tail, ht, hds⟩ :=
    topoAux_depsSeen g hnd g.length g [] order (fun m hm => hm) h
  simpa [ht] using hds

theorem order_complete {g : List NodeDecl} {order : List String}
    (h : topologicalOrder g = some order) :
    ∀ m ∈ g, m.id ∈ order :=
  topoAux_complete g.length g [] order h

theorem order_closed {g : List NodeDecl} {order : List String}
    (h : topologicalOrder g = some order) :
    ∀ id ∈ order, ∃ n, n ∈ g ∧ n.id = id := by
  intro id hid
  rcases topoAux_ids g.length g [] order h id hid with hacc | hex
  · simp at hacc
  · exact hex

theorem order_nodup {g : List NodeDecl} {order : List String}
    (hnd : (g.map NodeDecl.id).Nodup) (h : topologicalOrder g = some order) :
    order.Nodup :=
  topoAux_nodup g.length g [] order hnd List.nodup_nil (by simp) h

theorem depsSeen_append (g : List NodeDecl) :
    ∀ (l₁ : List String) (seen l₂ : List String),
    depsSeen g seen (l₁ ++ l₂) = true →
    depsSeen g seen l₁ = true ∧ depsSeen g (l₁.reverse ++ seen) l₂ = true := by
  intro l₁
  induction l₁ with
  | nil => intro seen l₂ h; exact ⟨rfl, by simpa using h⟩
  | cons x xs ih =>
    intro seen l₂ h
    rw [List.cons_append, depsSeen, Bool.and_eq_true] at h
    obtain ⟨hchk, hrest⟩ := h
    obtain ⟨h1, h2⟩ := ih (x :: seen) l₂ hrest
    refine ⟨?_, ?_⟩
    · rw [depsSeen, Bool.and_eq_true]
      exact ⟨hchk, h1⟩
    · simpa [List.append_assoc] using h2

theorem depsSeen_head {g : List NodeDecl} {seen : List String} {id : String}
    {post : List String} (h : depsSeen g seen (id :: post) = true) :
    ∀ n ∈ g, n.id = id → ∀ d ∈ n.dependsOn, d ∈ seen := by
  rw [depsSeen, Bool.and_eq_true] at h
  obtain ⟨hchk, _⟩ := h
  rw [List.all_eq_true] at hchk
  intro n hn hid d hd
  have := hchk n hn
  rw [if_pos hid, List.all_eq_true] at this
  simpa using this d hd

theorem slookup_cons_self {α : Type} (l : List (String × α)) (id : String) (a : α) :
    slookup ((id, a) :: l) id = some a := by
  simp [slookup]

theorem slookup_cons_ne {α : Type} (l : List (String × α)) (id id' : String) (a : α)
    (hne : id ≠ id') : slookup ((id, a) :: l) id' = slookup l id' := by
  simp [slookup, hne]

theorem findNode_of_exists {g : List NodeDecl} {id : String}
    (hex : ∃ n, n ∈ g ∧ n.id = id) :
    ∃ m, findNode g id = some m ∧ m ∈ g ∧ m.id = id := by
  obtain ⟨n, hn, hid⟩ := hex
  have hs : (g.find? (fun n => n.id = id)).isSome := by
    rw [List.find?_isSome]
    exact ⟨n, hn, by simp [hid]⟩
  obtain ⟨m, hm⟩ := Option.isSome_iff_exists.mp hs
  refine ⟨m, hm, List.mem_of_find?_eq_some hm, ?_⟩
  simpa using List.find?_some hm

theorem step_none {g : List NodeDecl} {h : Handlers} {σ : RunState} {id : String}
    (hfn : findNode g id = none) : step g h σ id = σ := by
  simp [step, hfn]

theorem step_blocked {g : List NodeDecl} {h : Handlers} {σ : RunState} {id : String}
    {n : NodeDecl} (hfind : findNode g id = some n)
    (hdeps : ¬(n.dependsOn.all
      (fun d => decide (slookup σ.statuses d = some RunStatus.applied)) = true)) :
    step g h σ id = ⟨σ.store, (id, RunStatus.blocked) :: σ.statuses, σ.log⟩ := by
  simp [step, hfind, hdeps]

theorem step_rec_none {g : List NodeDecl} {h : Handlers} {σ : RunState} {id : String}
    {n : NodeDecl} (hfind : findNode g id = some n)
    (hdeps : n.dependsOn.all
      (fun d => decide (slookup σ.statuses d = some RunStatus.applied)) = true)
    (hrec : slookup σ.store id = none) :
    step g h σ id = applyCreate h σ id (fingerprint n) := by
  simp [step, hfind, hdeps, hrec]

theorem step_rec_failed {g : List NodeDecl} {h : Handlers} {σ : RunState} {id : String}
    {n : NodeDecl} {rfp rpid : String} (hfind : findNode g id = some n)
    (hdeps : n.dependsOn.all
      (fun d => decide (slookup σ.statuses d = some RunStatus.applied)) = true)
    (hrec : slookup σ.store id = some ⟨rfp, rpid, RecStatus.failed⟩) :
    step g h σ id = applyCreate h σ id (fingerprint n) := by
  simp [step, hfind, hdeps, hrec]

theorem step_skip {g : List NodeDecl} {h : Handlers} {σ : RunState} {id : String}
    {n : NodeDecl} {rfp rpid : String} (hfind : findNode g id = some n)
    (hdeps : n.dependsOn.all
      (fun d => decide (slookup σ.statuses d = some RunStatus.applied)) = true)
    (hrec : slookup σ.store id = some ⟨rfp, rpid, RecStatus.applied⟩)
    (hfp : rfp = fingerprint n) :
    step g h σ id = ⟨σ.store, (id, RunStatus.applied) :: σ.statuses, σ.log⟩ := by
  simp [step, hfind, hdeps, hrec, hfp]

theorem step_update_some {g : List NodeDecl} {h : Handlers} {σ : RunState} {id : String}
    {n : NodeDecl} {rfp rpid out : String} (hfind : findNode g id = some n)
    (hdeps : n.dependsOn.all
      (fun d => decide (slookup σ.statuses d = some RunStatus.applied)) = true)
    (hrec : slookup σ.store id = some ⟨rfp, rpid, RecStatus.applied⟩)
    (hfp : ¬(rfp = fingerprint n)) (hu : h id Verb.update = some out) :
    step g h σ id = ⟨(id, ⟨fingerprint n, rpid, RecStatus.applied⟩) :: σ.store,
                     (id, RunStatus.applied) :: σ.statuses,
                     σ.log ++ [⟨id, Verb.update⟩]⟩ := by
  simp [step, hfind, hdeps, hrec, hfp, hu]

theorem step_update_none {g : List NodeDecl} {h : Handlers} {σ : RunState} {id : String}
    {n : NodeDecl} {rfp rpid : String} (hfind : findNode g id = some n)
    (hdeps : n.dependsOn.all
      (fun d => decide (slookup σ.statuses d = some RunStatus.applied)) = true)
    (hrec : slookup σ.store id = some ⟨rfp, rpid, RecStatus.applied⟩)
    (hfp : ¬(rfp = fingerprint n)) (hu : h id Verb.update = none) :
    step g h σ id = ⟨(id, ⟨rfp, rpid, RecStatus.failed⟩) :: σ.store,
                     (id, RunStatus.failed) :: σ.statuses,
                     σ.log ++ [⟨id, Verb.update⟩]⟩ := by
  simp [step, hfind, hdeps, hrec, hfp, hu]

theorem applyCreate_some {h : Handlers} {σ : RunState} {id fp pid : String}
    (hc : h id Verb.create = some pid) :
    applyCreate h σ id fp = ⟨(id, ⟨fp, pid, RecStatus.applied⟩) :: σ.store,
                             (id, RunStatus.applied) :: σ.statuses,
                             σ.log ++ [⟨id, Verb.create⟩]⟩ := by
  simp [applyCreate, hc]

theorem applyCreate_none {h : Handlers} {σ : RunState} {id fp : String}
    (hc : h id Verb.create = none) :
    applyCreate h σ id fp = ⟨(id, ⟨fp, "", RecStatus.failed⟩) :: σ.store,
                             (id, RunStatus.failed) :: σ.statuses,
                             σ.log ++ [⟨id, Verb.create⟩]⟩ := by
  simp [applyCreate, hc]

theorem step_statuses_other {g : List NodeDecl} {h : Handlers} {σ : RunState} {id id' : String}
    (hne : id' ≠ id) :
    slookup (step g h σ id).statuses id' = slookup σ.statuses id' := by
  have hne' : ¬(id = id') := fun hc => hne hc.symm
  unfold step applyCreate
  repeat' split
  all_goals simp [slookup, hne']

theorem step_store_other {g : List NodeDecl} {h : Handlers} {σ : RunState} {id id' : String}
    (hne : id' ≠ id) :
    slookup (step g h σ id).store id' = slookup σ.store id' := by
  have hne' : ¬(id = id') := fun hc => hne hc.symm
  unfold step applyCreate
  repeat' split
  all_goals simp [slookup, hne']

theorem step_log_sub {g : List NodeDecl} {h : Handlers} {σ : RunState} {id : String} :
    ∀ e ∈ (step g h σ id).log, e ∈ σ.log ∨ e.nodeId = id := by
  unfold step applyCreate
  repeat' split
  all_goals intro e he
  all_goals
    first
    | exact Or.inl he
    | (rcases List.mem_append.mp he with h1 | h1
       · exact Or.inl h1
       · rw [List.mem_singleton] at h1
         subst h1
         exact Or.inr rfl)

theorem runNodes_append (g : List NodeDecl) (h : Handlers) :
    ∀ (l₁ l₂ : List String) (σ : RunState),
    runNodes g h (l₁ ++ l₂) σ = runNodes g h l₂ (runNodes g h l₁ σ) := by
  intro l₁
  induction l₁ with
  | nil => intro l₂ σ; rfl
  | cons x xs ih =>
    intro l₂ σ
    rw [List.cons_append, runNodes, runNodes]
    exact ih l₂ (step g h σ x)

theorem runNodes_statuses_not_mem (g : List NodeDecl) (h : Handlers) :
    ∀ (rest : List String) (σ : RunState) (id : String), id ∉ rest →
    slookup (runNodes g h rest σ).statuses id = slookup σ.statuses id := by
  intro rest
  induction rest with
  | nil => intro σ id _; rfl
  | cons x xs ih =>
    intro σ id hid
    rw [runNodes]
    have hne : id ≠ x := fun hc => hid (hc ▸ List.mem_cons_self x xs)
    rw [ih (step g h σ x) id (fun hc => hid (List.mem_cons_of_mem x hc))]
    exact step_statuses_other hne

theorem runNodes_log_sub (g : List NodeDecl) (h : Handlers) :
    ∀ (rest : List String) (σ : RunState),
    ∀ e ∈ (runNodes g h rest σ).log, e ∈ σ.log ∨ e.nodeId ∈ rest := by
  intro rest
  induction rest with
  | nil => intro σ e he; exact Or.inl he
  | cons x xs ih =>
    intro σ e he
    rw [runNodes] at he
    rcases ih (step g h σ x) e he with h1 | h1
    · rcases step_log_sub e h1 with h2 | h2
      · exact Or.inl h2
      · exact Or.inr (h2 ▸ List.mem_cons_self x xs)
    · exact Or.inr (List.mem_cons_of_mem x h1)

theorem string_append_cancel_left {s t u : String} (h : s ++ t = s ++ u) : t = u := by
  apply String.ext
  have hd := congrArg String.data h
  simp only [String.data_append] at hd
  exact List.append_cancel_left hd

theorem fingerprint_ne_of_version_ne {n₁ n₂ : NodeDecl} (hp : n₁.properties = n₂.properties)
    (hv : n₁.version ≠ n₂.version) : fingerprint n₁ ≠ fingerprint n₂ := by
  unfold fingerprint
  rw [hp]
  intro hc
  exact hv (string_append_cancel_left hc)

theorem step_applied_of_success {g : List NodeDecl} {h : Handlers} {σ : RunState} {id : String}
    {m : NodeDecl} (hfind : findNode g id = some m)
    (hdeps : m.dependsOn.all
      (fun d => decide (slookup σ.statuses d = some RunStatus.applied)) = true)
    (hsucc : ∀ v, h id v ≠ none) :
    (step g h σ id).statuses = (id, RunStatus.applied) :: σ.statuses ∧
    ∃ pid, slookup (step g h σ id).store id = some ⟨fingerprint m, pid, RecStatus.applied⟩ := by
  cases hrec : slookup σ.store id with
  | none =>
    cases hc : h id Verb.create with
    | none => exact absurd hc (hsucc _)
    | some pid =>
      rw [step_rec_none hfind hdeps hrec, applyCreate_some hc]
      exact ⟨rfl, pid, slookup_cons_self _ _ _⟩
  | some rec =>
    obtain ⟨rfp, rpid, rst⟩ := rec
    cases rst with
    | failed =>
      cases hc : h id Verb.create with
      | none => exact absurd hc (hsucc _)
      | some pid =>
        rw [step_rec_failed hfind hdeps hrec, applyCreate_some hc]
        exact ⟨rfl, pid, slookup_cons_self _ _ _⟩
    | applied =>
      by_cases hfp : rfp = fingerprint m
      · subst hfp
        rw [step_skip hfind hdeps hrec rfl]
        exact ⟨rfl, rpid, hrec⟩
      · cases hu : h id Verb.update with
        | none => exact absurd hu (hsucc _)
        | some out =>
          rw [step_update_some hfind hdeps hrec hfp hu]
          exact ⟨rfl, rpid, slookup_cons_self _ _ _⟩

theorem run_records_aux (g : List NodeDecl) (h : Handlers)
    (hnd : (g.map NodeDecl.id).Nodup) (hsucc : ∀ id v, h id v ≠ none) :
    ∀ (rest seen : List String) (σ : RunState),
    (∀ d ∈ seen, slookup σ.statuses d = some RunStatus.applied) →
    (∀ n ∈ g, n.id ∈ seen →
      ∃ pid, slookup σ.store n.id = some ⟨fingerprint n, pid, RecStatus.applied⟩) →
    (∀ id ∈ rest, ∃ n, n ∈ g ∧ n.id = id) →
    depsSeen g seen rest = true →
    (∀ d, d ∈ seen ∨ d ∈ rest →
      slookup (runNodes g h rest σ).statuses d = some RunStatus.applied) ∧
    (∀ n ∈ g, n.id ∈ seen ∨ n.id ∈ rest →
      ∃ pid, slookup (runNodes g h rest σ).store n.id
        = some ⟨fingerprint n, pid, RecStatus.applied⟩) := by
  intro rest
  induction rest with
  | nil =>
    intro seen σ h1 h2 hclosed hds
    constructor
    · intro d hd
      rcases hd with hd | hd
      · exact h1 d hd
      · simp at hd
    · intro n hn hd
      rcases hd with hd | hd
      · exact h2 n hn hd
      · simp at hd
  | cons id₀ rest' ih =>
    intro seen σ h1 h2 hclosed hds
    obtain ⟨m, hfind, hmg, hmid⟩ := findNode_of_exists (hclosed id₀ (List.mem_cons_self _ _))
    rw [depsSeen, Bool.and_eq_true] at hds
    obtain ⟨hchk, hds'⟩ := hds
    have hdepseen : ∀ d ∈ m.dependsOn, d ∈ seen := by
      rw [List.all_eq_true] at hchk
      have hm2 := hchk m hmg
      rw [if_pos hmid, List.all_eq_true] at hm2
      intro d hd
      simpa using hm2 d hd
    have hdeps : m.dependsOn.all
        (fun d => decide (slookup σ.statuses d = some RunStatus.applied)) = true := by
      rw [List.all_eq_true]
      intro d hd
      simpa using h1 d (hdepseen d hd)
    obtain ⟨hstat, pid₀, hrec₀⟩ := step_applied_of_success hfind hdeps (fun v => hsucc id₀ v)
    rw [runNodes]
    have h1' : ∀ d ∈ id₀ :: seen,
        slookup (step g h σ id₀).statuses d = some RunStatus.applied := by
      intro d hd
      by_cases hdi : d = id₀
      · subst hdi
        rw [hstat]
        exact slookup_cons_self _ _ _
      · have hd' : d ∈ seen := by
          rcases List.mem_cons.mp hd with hc | hc
          · exact absurd hc hdi
          · exact hc
        rw [hstat, slookup_cons_ne _ _ _ _ (fun hc => hdi hc.symm)]
        exact h1 d hd'
    have h2' : ∀ n ∈ g, n.id ∈ id₀ :: seen →
        ∃ pid, slookup (step g h σ id₀).store n.id
          = some ⟨fingerprint n, pid, RecStatus.applied⟩ := by
      intro n hn hd
      by_cases hni : n.id = id₀
      · have hnm : n = m := List.inj_on_of_nodup_map hnd hn hmg (by rw [hni, hmid])
        subst hnm
        exact ⟨pid₀, by rw [hni]; exact hrec₀⟩
      · have hseen : n.id ∈ seen := by
          rcases List.mem_cons.mp hd with hc | hc
          · exact absurd hc hni
          · exact hc
        obtain ⟨pid, hp⟩ := h2 n hn hseen
        exact ⟨pid, by rw [step_store_other hni]; exact hp⟩
    have hclosed' : ∀ id ∈ rest', ∃ n, n ∈ g ∧ n.id = id :=
      fun id hid => hclosed id (List.mem_cons_of_mem _ hid)
    obtain ⟨c1, c2⟩ := ih (id₀ :: seen) (step g h σ id₀) h1' h2' hclosed' hds'
    constructor
    · intro d hd
      apply c1
      rcases hd with hd | hd
      · exact Or.inl (List.mem_cons_of_mem _ hd)
      · rcases List.mem_cons.mp hd with heq | hd'
        · exact Or.inl (heq ▸ List.mem_cons_self _ _)
        · exact Or.inr hd'
    · intro n hn hd
      apply c2 n hn
      rcases hd with hd | hd
      · exact Or.inl (List.mem_cons_of_mem _ hd)
      · rcases List.mem_cons.mp hd with heq | hd'
        · exact Or.inl (heq ▸ List.mem_cons_self _ _)
        · exact Or.inr hd'

theorem runNodes_frozen_of_match (g : List NodeDecl) (h : Handlers) :
    ∀ (rest : List String) (σ : RunState),
    (∀ n ∈ g, n.id ∈ rest →
      ∃ pid, slookup σ.store n.id = some ⟨fingerprint n, pid, RecStatus.applied⟩) →
    (runNodes g h rest σ).log = σ.log ∧ (runNodes g h rest σ).store = σ.store := by
  intro rest
  induction rest with
  | nil => intro σ _; exact ⟨rfl, rfl⟩
  | cons id₀ rest' ih =>
    intro σ hmatch
    rw [runNodes]
    have hmatch' : ∀ n ∈ g, n.id ∈ rest' →
        ∃ pid, slookup σ.store n.id = some ⟨fingerprint n, pid, RecStatus.applied⟩ :=
      fun n hn hid => hmatch n hn (List.mem_cons_of_mem _ hid)
    cases hfn : findNode g id₀ with
    | none =>
      rw [step_none hfn]
      exact ih σ hmatch'
    | some m =>
      have hmg : m ∈ g := List.mem_of_find?_eq_some hfn
      have hmid : m.id = id₀ := by simpa using List.find?_some hfn
      obtain ⟨pid, hp⟩ := hmatch m hmg (hmid ▸ List.mem_cons_self id₀ rest')
      rw [hmid] at hp
      by_cases hdeps : m.dependsOn.all
          (fun d => decide (slookup σ.statuses d = some RunStatus.applied)) = true
      · rw [step_skip hfn hdeps hp rfl]
        exact ih ⟨σ.store, (id₀, RunStatus.applied) :: σ.statuses, σ.log⟩ hmatch'
      · rw [step_blocked hfn hdeps]
        exact ih ⟨σ.store, (id₀, RunStatus.blocked) :: σ.statuses, σ.log⟩ hmatch'

theorem runNodes_skip_avoid (g : List NodeDecl) (h : Handlers) (kid : String) :
    ∀ (rest seen : List String) (σ : RunState),
    (∀ id ∈ rest, id ≠ kid) →
    (∀ d ∈ seen, slookup σ.statuses d = some RunStatus.applied) →
    (∀ n ∈ g, n.id ≠ kid →
      ∃ pid, slookup σ.store n.id = some ⟨fingerprint n, pid, RecStatus.applied⟩) →
    (∀ id ∈ rest, ∃ n, n ∈ g ∧ n.id = id) →
    depsSeen g seen rest = true →
    (runNodes g h rest σ).log = σ.log ∧ (runNodes g h rest σ).store = σ.store ∧
    (∀ d, d ∈ seen ∨ d ∈ rest →
      slookup (runNodes g h rest σ).statuses d = some RunStatus.applied) := by
  intro rest
  induction rest with
  | nil =>
    intro seen σ _ h1 _ _ _
    refine ⟨rfl, rfl, ?_⟩
    intro d hd
    rcases hd with hd | hd
    · exact h1 d hd
    · simp at hd
  | cons id₀ rest' ih =>
    intro seen σ havoid h1 hmatch hclosed hds
    obtain ⟨m, hfind, hmg, hmid⟩ := findNode_of_exists (hclosed id₀ (List.mem_cons_self _ _))
    rw [depsSeen, Bool.and_eq_true] at hds
    obtain ⟨hchk, hds'⟩ := hds
    have hdepseen : ∀ d ∈ m.dependsOn, d ∈ seen := by
      rw [List.all_eq_true] at hchk
      have hm2 := hchk m hmg
      rw [if_pos hmid, List.all_eq_true] at hm2
      intro d hd
      simpa using hm2 d hd
    have hdeps : m.dependsOn.all
        (fun d => decide (slookup σ.statuses d = some RunStatus.applied)) = true := by
      rw [List.all_eq_true]
      intro d hd
      simpa using h1 d (hdepseen d hd)
    have hmkid : m.id ≠ kid := by
      rw [hmid]
      exact havoid id₀ (List.mem_cons_self _ _)
    obtain ⟨pid, hp⟩ := hmatch m hmg hmkid
    rw [hmid] at hp
    rw [runNodes, step_skip hfind hdeps hp rfl]
    have h1' : ∀ d ∈ id₀ :: seen,
        slookup ((⟨σ.store, (id₀, RunStatus.applied) :: σ.statuses, σ.log⟩ :
          RunState)).statuses d = some RunStatus.applied := by
      intro d hd
      by_cases hdi : d = id₀
      · subst hdi
        exact slookup_cons_self _ _ _
      · have hd' : d ∈ seen := by
          rcases List.mem_cons.mp hd with hc | hc
          · exact absurd hc hdi
          · exact hc
        have := slookup_cons_ne σ.statuses id₀ d RunStatus.applied (fun hc => hdi hc.symm)
        rw [show ((⟨σ.store, (id₀, RunStatus.applied) :: σ.statuses, σ.log⟩ :
          RunState)).statuses = (id₀, RunStatus.applied) :: σ.statuses from rfl, this]
        exact h1 d hd'
    obtain ⟨c1, c2, c3⟩ := ih (id₀ :: seen) ⟨σ.store, (id₀, RunStatus.applied) :: σ.statuses, σ.log⟩
      (fun id hid => havoid id (List.mem_cons_of_mem _ hid)) h1' hmatch
      (fun id hid => hclosed id (List.mem_cons_of_mem _ hid)) hds'
    refine ⟨c1, c2, ?_⟩
    intro d hd
    apply c3
    rcases hd with hd | hd
    · exact Or.inl (List.mem_cons_of_mem _ hd)
    · rcases List.mem_cons.mp hd with heq | hd'
      · exact Or.inl (heq ▸ List.mem_cons_self _ _)
      · exact Or.inr hd'

theorem idxOf_lt_length {x : String} : ∀ l : List String, x ∈ l → idxOf x l < l.length := by
  intro l
  induction l with
  | nil => intro hx; simp at hx
  | cons y ys ih =>
    intro hx
    rw [idxOf]
    by_cases hyx : y = x
    · rw [if_pos hyx]
      simp
    · rw [if_neg hyx]
      have hx' : x ∈ ys := by
        rcases List.mem_cons.mp hx with hc | hc
        · exact absurd hc.symm hyx
        · exact hc
      simp only [List.length_cons]
      have := ih hx'
      omega

theorem idxOf_append_left {x : String} : ∀ l₁ l₂ : List String, x ∈ l₁ →
    idxOf x (l₁ ++ l₂) = idxOf x l₁ := by
  intro l₁
  induction l₁ with
  | nil => intro l₂ hx; simp at hx
  | cons y ys ih =>
    intro l₂ hx
    rw [List.cons_append, idxOf, idxOf]
    by_cases hyx : y = x
    · rw [if_pos hyx, if_pos hyx]
    · rw [if_neg hyx, if_neg hyx]
      have hx' : x ∈ ys := by
        rcases List.mem_cons.mp hx with hc | hc
        · exact absurd hc.symm hyx
        · exact hc
      rw [ih l₂ hx']

theorem idxOf_split {a : String} : ∀ (pre post : List String), a ∉ pre →
    idxOf a (pre ++ a :: post) = pre.length := by
  intro pre
  induction pre with
  | nil => intro post _; simp [idxOf]
  | cons y ys ih =>
    intro post ha
    rw [List.cons_append, idxOf]
    have hya : ¬(y = a) := fun hc => ha (by rw [← hc]; exact List.mem_cons_self y ys)
    rw [if_neg hya]
    have ha' : a ∉ ys := fun hc => ha (List.mem_cons_of_mem _ hc)
    rw [ih post ha']
    simp

theorem edge_rank {g : List NodeDecl} {order : List String}
    (hnd : (g.map NodeDecl.id).Nodup) (ht : topologicalOrder g = some order)
    {a b : String} (he : EdgeTo g a b) : idxOf b order < idxOf a order := by
  obtain ⟨n, hn, hna, hb⟩ := he
  have hmem : a ∈ order := hna ▸ order_complete ht n hn
  obtain ⟨pre, post, hsplit⟩ := List.append_of_mem hmem
  have hnodup : order.Nodup := order_nodup hnd ht
  rw [hsplit, List.nodup_append] at hnodup
  obtain ⟨hnp, hnc, hdisj⟩ := hnodup
  have hanp : a ∉ pre := fun hc => hdisj hc (List.mem_cons_self _ _)
  have hdso := order_depsSeen hnd ht
  rw [hsplit] at hdso
  have htail := (depsSeen_append g pre [] (a :: post) hdso).2
  have hbpre : b ∈ pre := by
    have h3 := depsSeen_head htail n hn hna b hb
    simpa using h3
  rw [hsplit, idxOf_append_left pre (a :: post) hbpre, idxOf_split pre post hanp]
  exact idxOf_lt_length pre hbpre

theorem chain_rank {g : List NodeDecl} {order : List String}
    (hnd : (g.map NodeDecl.id).Nodup) (ht : topologicalOrder g = some order) :
    ∀ (l : List String) (c : String), List.Chain (EdgeTo g) c l →
    ∀ x ∈ l, idxOf x order < idxOf c order := by
  intro l
  induction l with
  | nil => intro c _ x hx; simp at hx
  | cons y ys ih =>
    intro c hch x hx
    rw [List.chain_cons] at hch
    obtain ⟨hcy, hch'⟩ := hch
    have hyc := edge_rank hnd ht hcy
    rcases List.mem_cons.mp hx with rfl | hx'
    · exact hyc
    · exact lt_trans (ih y hch' x hx') hyc

theorem cycle_no_order {g : List NodeDecl}
    (hnd : (g.map NodeDecl.id).Nodup)
    (hcyc : ∃ c l, List.Chain (EdgeTo g) c (l ++ [c])) :
    topologicalOrder g = none := by
  cases hto : topologicalOrder g with
  | none => rfl
  | some order =>
    exfalso
    obtain ⟨c, l, hch⟩ := hcyc
    have := chain_rank hnd hto (l ++ [c]) c hch c (by simp)
    exact lt_irrefl _ this

theorem final_blocked_of_dep (g : List NodeDecl) (h : Handlers)
    (s : List (String × ApplyRecord)) {order : List String}
    (hnd : (g.map NodeDecl.id).Nodup) (ht : topologicalOrder g = some order)
    {n : NodeDecl} (hn : n ∈ g) {d : String} (hd : d ∈ n.dependsOn) {st : RunStatus}
    (hds : slookup (runNodes g h order (initState s)).statuses d = some st)
    (hne : st ≠ RunStatus.applied) :
    slookup (runNodes g h order (initState s)).statuses n.id = some RunStatus.blocked ∧
    ∀ e ∈ (runNodes g h order (initState s)).log, e.nodeId ≠ n.id := by
  have hmem : n.id ∈ order := order_complete ht n hn
  obtain ⟨pre, post, hsplit⟩ := List.append_of_mem hmem
  have hnodup : order.Nodup := order_nodup hnd ht
  rw [hsplit, List.nodup_append] at hnodup
  obtain ⟨hnp, hnc, hdisj⟩ := hnodup
  have hbnp : n.id ∉ pre := fun hc => hdisj hc (List.mem_cons_self _ _)
  have hbnpost : n.id ∉ post := (List.nodup_cons.mp hnc).1
  have hdso := order_depsSeen hnd ht
  rw [hsplit] at hdso
  have htail := (depsSeen_append g pre [] (n.id :: post) hdso).2
  have hdpre : d ∈ pre := by
    have h3 := depsSeen_head htail n hn rfl d hd
    simpa using h3
  have hdnpost : d ∉ post := fun hc => hdisj hdpre (List.mem_cons_of_mem _ hc)
  have hdnn : d ≠ n.id := fun hc => hbnp (hc ▸ hdpre)
  have hrunsplit : runNodes g h order (initState s)
      = runNodes g h post (step g h (runNodes g h pre (initState s)) n.id) := by
    rw [hsplit, runNodes_append]
    rfl
  have hdstat : slookup (runNodes g h pre (initState s)).statuses d = some st := by
    rw [hrunsplit, runNodes_statuses_not_mem g h post _ d hdnpost,
        step_statuses_other hdnn] at hds
    exact hds
  have hdepsf : ¬(n.dependsOn.all
      (fun d' => decide (slookup (runNodes g h pre (initState s)).statuses d'
        = some RunStatus.applied)) = true) := by
    intro hall
    rw [List.all_eq_true] at hall
    have h4 : slookup (runNodes g h pre (initState s)).statuses d
        = some RunStatus.applied := by simpa using hall d hd
    rw [hdstat] at h4
    exact hne (Option.some.inj h4)
  obtain ⟨m, hfind, hmg, hmid⟩ := findNode_of_exists ⟨n, hn, rfl⟩
  have hmn : m = n := List.inj_on_of_nodup_map hnd hmg hn hmid
  subst hmn
  have hstep : step g h (runNodes g h pre (initState s)) m.id
      = ⟨(runNodes g h pre (initState s)).store,
         (m.id, RunStatus.blocked) :: (runNodes g h pre (initState s)).statuses,
         (runNodes g h pre (initState s)).log⟩ := step_blocked hfind hdepsf
  constructor
  · rw [hrunsplit, runNodes_statuses_not_mem g h post _ _ hbnpost, hstep]
    exact slookup_cons_self _ _ _
  · intro e he
    rw [hrunsplit] at he
    rcases runNodes_log_sub g h post _ e he with h1 | h1
    · rw [hstep] at h1
      rcases runNodes_log_sub g h pre (initState s) e h1 with h2 | h2
      · simp [initState] at h2
      · intro hc
        rw [hc] at h2
        exact hbnp h2
    · intro hc
      rw [hc] at h1
      exact hbnpost h1

/-- C1: the fingerprint is a deterministic function of a node's declared
properties and its version field only — nodes agreeing on `properties` and
`version` have equal fingerprints even when their `timestamp` (or id, or
dependency list) differs, because the timestamp is recorded on the node but
excluded from the hash. -/
theorem claim1_fingerprint_excludes_timestamp (id₁ id₂ : String)
    (props : List (String × String)) (ver ts₁ ts₂ : String)
    (deps₁ deps₂ : List String) :
    fingerprint ⟨id₁, props, ver, ts₁, deps₁⟩ = fingerprint ⟨id₂, props, ver, ts₂, deps₂⟩ := rfl

/-- C3: for every graph on which `topologicalOrder` succeeds (every acyclic
declared graph), the returned sequence lists each node only after all ids it
depends on (`depsSeen`), contains every declared node id, and is unique —
determinism on identical input is inherent since `topologicalOrder` is a
function of the graph, with ties broken by declaration order inside
`topoAux`. -/
theorem claim3_topological_order_sound (g : List NodeDecl) (order : List String)
    (hnd : (g.map NodeDecl.id).Nodup) (ht : topologicalOrder g = some order) :
    depsSeen g [] order = true ∧ (∀ n ∈ g, n.id ∈ order) ∧
    ∀ order₂, topologicalOrder g = some order₂ → order₂ = order := by
  refine ⟨order_depsSeen hnd ht, order_complete ht, ?_⟩
  intro order₂ ht₂
  rw [ht] at ht₂
  exact (Option.some.inj ht₂).symm

theorem claim3_witness : depsSeen gEx3 [] ["A", "B", "C"] = true :=
  (claim3_topological_order_sound gEx3 ["A", "B", "C"] (by decide) rfl).1

/-- C6: a graph whose `dependsOn` edges contain a cycle has no topological
order (`topologicalOrder` fails, modelling `CycleError`), and the apply run
fails fast with `CycleError` for every handler set and store — no `create`,
`update`, or `delete` handler is ever invoked since the run never reaches
the walking phase. -/
theorem claim6_cycle_fails_before_any_handler (g : List NodeDecl)
    (hnd : (g.map NodeDecl.id).Nodup)
    (hcyc : ∃ c l, List.Chain (EdgeTo g) c (l ++ [c])) :
    topologicalOrder g = none ∧
    ∀ (h : Handlers) (s : List (String × ApplyRecord)),
      applyRun g h s = Except.error OrchError.cycleError := by
  have hto := cycle_no_order hnd hcyc
  exact ⟨hto, fun h s => by simp [applyRun, hto]⟩

theorem claim6_witness : applyRun gCyc hOk [] = Except.error OrchError.cycleError := by
  have e1 : EdgeTo gCyc "a" "b" := ⟨⟨"a", [], "1", "t", ["b"]⟩, by decide, rfl, by decide⟩
  have e2 : EdgeTo gCyc "b" "a" := ⟨⟨"b", [], "1", "t", ["a"]⟩, by decide, rfl, by decide⟩
  exact (claim6_cycle_fails_before_any_handler gCyc (by decide)
    ⟨"a", ["b"], List.Chain.cons e1 (List.Chain.cons e2 List.Chain.nil)⟩).2 hOk []

/-- C4: during apply, the verb dispatched for a node whose dependencies are
all `Applied` is determined exactly by its `ApplyRecord` and fingerprint: no
record or a `Failed` record → `create` (success stores an `Applied` record
with the new fingerprint and physical id, failure stores a `Failed` record);
an `Applied` record with equal fingerprint → no handler call and the node is
`Applied`; an `Applied` record with differing fingerprint → `update`
(success updates the record to the new fingerprint, failure stores a
`Failed` record). -/
theorem claim4_dispatch_by_record_and_fingerprint (g : List NodeDecl) (h : Handlers)
    (σ : RunState) (id : String) (n : NodeDecl) (hfind : findNode g id = some n)
    (hdeps : n.dependsOn.all
      (fun d => decide (slookup σ.statuses d = some RunStatus.applied)) = true) :
    ((slookup σ.store id = none ∨
        ∃ rfp rpid, slookup σ.store id = some ⟨rfp, rpid, RecStatus.failed⟩) →
      (∀ pid, h id Verb.create = some pid →
        step g h σ id = ⟨(id, ⟨fingerprint n, pid, RecStatus.applied⟩) :: σ.store,
                         (id, RunStatus.applied) :: σ.statuses,
                         σ.log ++ [⟨id, Verb.create⟩]⟩) ∧
      (h id Verb.create = none →
        step g h σ id = ⟨(id, ⟨fingerprint n, "", RecStatus.failed⟩) :: σ.store,
                         (id, RunStatus.failed) :: σ.statuses,
                         σ.log ++ [⟨id, Verb.create⟩]⟩)) ∧
    (∀ rfp rpid, slookup σ.store id = some ⟨rfp, rpid, RecStatus.applied⟩ →
      rfp = fingerprint n →
      step g h σ id = ⟨σ.store, (id, RunStatus.applied) :: σ.statuses, σ.log⟩) ∧
    (∀ rfp rpid, slookup σ.store id = some ⟨rfp, rpid, RecStatus.applied⟩ →
      rfp ≠ fingerprint n →
      (∀ out, h id Verb.update = some out →
        step g h σ id = ⟨(id, ⟨fingerprint n, rpid, RecStatus.applied⟩) :: σ.store,
                         (id, RunStatus.applied) :: σ.statuses,
                         σ.log ++ [⟨id, Verb.update⟩]⟩) ∧
      (h id Verb.update = none →
        step g h σ id = ⟨(id, ⟨rfp, rpid, RecStatus.failed⟩) :: σ.store,
                         (id, RunStatus.failed) :: σ.statuses,
                         σ.log ++ [⟨id, Verb.update⟩]⟩)) := by
  refine ⟨?_, ?_, ?_⟩
  · intro hrec
    have hcr : step g h σ id = applyCreate h σ id (fingerprint n) := by
      rcases hrec with hrec | ⟨rfp, rpid, hrec⟩
      · exact step_rec_none hfind hdeps hrec
      · exact step_rec_failed hfind hdeps hrec
    exact ⟨fun pid hc => by rw [hcr, applyCreate_some hc],
           fun hc => by rw [hcr, applyCreate_none hc]⟩
  · intro rfp rpid hrec hfp
    exact step_skip hfind hdeps hrec hfp
  · intro rfp rpid hrec hfp
    exact ⟨fun out hu => step_update_some hfind hdeps hrec hfp hu,
           fun hu => step_update_none hfind hdeps hrec hfp hu⟩

theorem claim4_witness : step g4w hOk (initState []) "a"
    = ⟨[("a", ⟨fingerprint ⟨"a", [("k", "v")], "1", "t", []⟩, "p", RecStatus.applied⟩)],
       [("a", RunStatus.applied)], [⟨"a", Verb.create⟩]⟩ := by
  simpa using
    ((claim4_dispatch_by_record_and_fingerprint g4w hOk (initState [])
      "a" ⟨"a", [("k", "v")], "1", "t", []⟩ rfl rfl).1 (Or.inl rfl)).1 "p" rfl

/-- C9: the EMR Serverless job-run custom operation declares only a Create
action — `startJobRun` on service `EMRServerless` under `on_create`, with
fixed physical id `"EMRServerlessJobRun"` — and declares no external action
for Update or Delete, so the remote job is started only when the node is
first created and is never re-started on a property change nor cancelled on
teardown. -/
theorem claim9_emr_job_run_create_only :
    actionFor emr_job_custom_resource Verb.create
      = some ⟨"EMRServerless", "startJobRun", "EMRServerlessJobRun"⟩ ∧
    actionFor emr_job_custom_resource Verb.update = none ∧
    actionFor emr_job_custom_resource Verb.delete = none :=
  ⟨rfl, rfl, rfl⟩

/-- C10: in the declared stack graph, the catalog-registration node
`S3TablesCatalogResource` carries exactly two explicit dependency edges — on
`LakeFormationPermissionsResource` and `LakeFormationResourceRegistration` —
and none on the table bucket node `caredgedemo`; consequently `stackOrderEx`
is a valid topological sequence (dependency-respecting and a permutation of
the declared ids) that places the catalog node before the table bucket
node. -/
theorem claim10_catalog_explicit_deps :
    (findNode stackGraph "S3TablesCatalogResource").map NodeDecl.dependsOn
      = some ["LakeFormationPermissionsResource", "LakeFormationResourceRegistration"] ∧
    (∀ n ∈ stackGraph, n.id = "S3TablesCatalogResource" → "caredgedemo" ∉ n.dependsOn) ∧
    depsSeen stackGraph [] stackOrderEx = true ∧
    stackOrderEx.Perm (stackGraph.map NodeDecl.id) ∧
    idxOf "S3TablesCatalogResource" stackOrderEx < idxOf "caredgedemo" stackOrderEx := by
  refine ⟨rfl, by decide, by decide, by decide, by decide⟩

/-- C2: applying the same graph twice with no change — the first apply run
starting from an empty store with every handler call succeeding, the second
starting from the store the first run left — produces an empty invocation
log on the second run: no `create`, `update`, or `delete` handler is called
on any node, because every node's stored fingerprint equals its current one
and the engine skips it. -/
theorem claim2_second_apply_no_invocations (g : List NodeDecl) (h : Handlers)
    (order : List String) (hnd : (g.map NodeDecl.id).Nodup)
    (hsucc : ∀ id v, h id v ≠ none) (ht : topologicalOrder g = some order) :
    (∀ s, applyRun g h s = Except.ok (runNodes g h order (initState s))) ∧
    (runNodes g h order (initState ((runNodes g h order (initState [])).store))).log = [] := by
  have happly : ∀ s, applyRun g h s = Except.ok (runNodes g h order (initState s)) := by
    intro s
    simp [applyRun, ht]
  refine ⟨happly, ?_⟩
  have hrec := (run_records_aux g h hnd hsucc order [] (initState [])
      (by intro d hd; simp at hd)
      (by intro n hn hid; simp at hid)
      (order_closed ht) (order_depsSeen hnd ht)).2
  have hmatch : ∀ n ∈ g, n.id ∈ order →
      ∃ pid, slookup ((initState ((runNodes g h order (initState [])).store)).store) n.id
        = some ⟨fingerprint n, pid, RecStatus.applied⟩ :=
    fun n hn hid => hrec n hn (Or.inr hid)
  exact (runNodes_frozen_of_match g h order
    (initState ((runNodes g h order (initState [])).store)) hmatch).1

theorem claim2_witness :
    (runNodes g2w hOk ["a", "b"]
      (initState ((runNodes g2w hOk ["a", "b"] (initState [])).store))).log = [] :=
  (claim2_second_apply_no_invocations g2w hOk ["a", "b"] (by decide)
    (fun id v => by simp [hOk]) rfl).2

/-- C5: if a node `a` ends an apply run `Failed`, every node that depends on
it directly or transitively ends that run `Blocked` and its handler is never
invoked in that run (no log entry carries its id); and re-running over the
store the run left, with handlers that now succeed (the failure fixed),
brings every declared node — the previously failed node and its previously
blocked dependents included — to `Applied`. -/
theorem claim5_failure_blocks_dependents_rerun_recovers
    (g : List NodeDecl) (h : Handlers) (order : List String) (a : String)
    (hnd : (g.map NodeDecl.id).Nodup) (ht : topologicalOrder g = some order)
    (hfail : slookup (runNodes g h order (initState [])).statuses a
      = some RunStatus.failed) :
    (∀ b, DependsOn g b a →
      slookup (runNodes g h order (initState [])).statuses b = some RunStatus.blocked ∧
      ∀ e ∈ (runNodes g h order (initState [])).log, e.nodeId ≠ b) ∧
    (∀ h₂ : Handlers, (∀ id v, h₂ id v ≠ none) →
      ∀ n ∈ g, slookup (runNodes g h₂ order
        (initState ((runNodes g h order (initState [])).store))).statuses n.id
          = some RunStatus.applied) := by
  constructor
  · intro b hdep
    revert hfail
    induction hdep with
    | direct hn hd =>
      intro hfail
      exact final_blocked_of_dep g h [] hnd ht hn hd hfail (by decide)
    | tail hn hd hsub ih =>
      intro hfail
      exact final_blocked_of_dep g h [] hnd ht hn hd (ih hfail).1 (by decide)
  · intro h₂ hsucc₂ n hn
    exact (run_records_aux g h₂ hnd hsucc₂ order []
      (initState ((runNodes g h order (initState [])).store))
      (by intro d hd; simp at hd)
      (by intro n' hn' hid; simp at hid)
      (order_closed ht) (order_depsSeen hnd ht)).1 n.id (Or.inr (order_complete ht n hn))

theorem claim5_witness :
    slookup (runNodes g5w hFailA ["A", "B"] (initState [])).statuses "B"
      = some RunStatus.blocked :=
  ((claim5_failure_blocks_dependents_rerun_recovers g5w hFailA ["A", "B"] "A"
      (by decide) rfl (by decide)).1 "B"
    (DependsOn.direct
      (show (⟨"B", [], "1", "t", ["A"]⟩ : NodeDecl) ∈ g5w by decide)
      (show "A" ∈ (⟨"B", [], "1", "t", ["A"]⟩ : NodeDecl).dependsOn by decide))).1

/-- C7: teardown walks the exact reverse of the topological order.  For the
three-node chain `A → B → C` (topological order `A, B, C`): with all deletes
succeeding, `delete` is invoked in the order `C, B, A` and every record is
removed; when `B`'s delete fails, `delete` is invoked only on `C` then `B`,
`A`'s delete is never attempted (its record is untouched, the failure stops
that branch), `B`'s record is left with status `Failed`, and `C` stays
deleted (its record remains removed). -/
theorem claim7_teardown_reverse_chain :
    topologicalOrder gABC = some ["A", "B", "C"] ∧
    destroyLog gABC hOk storeABC
      = [⟨"C", Verb.delete⟩, ⟨"B", Verb.delete⟩, ⟨"A", Verb.delete⟩] ∧
    destroyStore gABC hOk storeABC = [] ∧
    destroyLog gABC hFailB storeABC = [⟨"C", Verb.delete⟩, ⟨"B", Verb.delete⟩] ∧
    slookup (destroyStore gABC hFailB storeABC) "C" = none ∧
    (slookup (destroyStore gABC hFailB storeABC) "B").map ApplyRecord.status
      = some RecStatus.failed ∧
    slookup (destroyStore gABC hFailB storeABC) "A"
      = some ⟨"fA", "pA", RecStatus.applied⟩ := by
  refine ⟨rfl, by decide, by decide, by decide, by decide, by decide, by decide⟩

theorem run_single_update (g : List NodeDecl) (h : Handlers) (kid : String)
    (n' : NodeDecl) (store : List (String × ApplyRecord)) (order : List String)
    (hn' : n' ∈ g) (hid' : n'.id = kid)
    (hnd : (g.map NodeDecl.id).Nodup)
    (ht : topologicalOrder g = some order)
    (hmatch : ∀ n ∈ g, n.id ≠ kid →
      ∃ pid, slookup store n.id = some ⟨fingerprint n, pid, RecStatus.applied⟩)
    (hkid : ∃ oldfp pid, slookup store kid = some ⟨oldfp, pid, RecStatus.applied⟩ ∧
      oldfp ≠ fingerprint n') :
    (runNodes g h order (initState store)).log = [⟨kid, Verb.update⟩] := by
  obtain ⟨oldfp, pid₀, hreck, hfpne⟩ := hkid
  have hkmem : kid ∈ order := hid' ▸ order_complete ht n' hn'
  obtain ⟨pre, post, hsplit⟩ := List.append_of_mem hkmem
  have hnodup : order.Nodup := order_nodup hnd ht
  rw [hsplit, List.nodup_append] at hnodup
  obtain ⟨hnp, hnc, hdisj⟩ := hnodup
  have hknp : kid ∉ pre := fun hc => hdisj hc (List.mem_cons_self _ _)
  have hknpost : kid ∉ post := (List.nodup_cons.mp hnc).1
  have hdso := order_depsSeen hnd ht
  rw [hsplit] at hdso
  obtain ⟨hpre, htail⟩ := depsSeen_append g pre [] (kid :: post) hdso
  obtain ⟨hlog1, hstore1, hstat1⟩ := runNodes_skip_avoid g h kid pre [] (initState store)
    (fun id hidp hc => hknp (hc ▸ hidp))
    (by intro d hd; simp at hd)
    hmatch
    (fun id hidp => order_closed ht id (hsplit.symm ▸ List.mem_append_left _ hidp))
    hpre
  obtain ⟨m, hfindk, hmg, hmid⟩ := findNode_of_exists ⟨n', hn', hid'⟩
  have hmn : m = n' := List.inj_on_of_nodup_map hnd hmg hn' (by rw [hmid, hid'])
  subst hmn
  have hdeppre : ∀ d ∈ m.dependsOn, d ∈ pre := by
    intro d hd
    have h3 := depsSeen_head htail m hmg hmid d hd
    simpa using h3
  have hdepsk : m.dependsOn.all (fun d =>
      decide (slookup (runNodes g h pre (initState store)).statuses d
        = some RunStatus.applied)) = true := by
    rw [List.all_eq_true]
    intro d hd
    simpa using hstat1 d (Or.inr (hdeppre d hd))
  have hreck' : slookup (runNodes g h pre (initState store)).store kid
      = some ⟨oldfp, pid₀, RecStatus.applied⟩ := by
    rw [hstore1]
    exact hreck
  have hfpne' : ¬(oldfp = fingerprint m) := hfpne
  have hstepk : ∃ rec' st', step g h (runNodes g h pre (initState store)) kid
      = ⟨(kid, rec') :: (runNodes g h pre (initState store)).store,
         (kid, st') :: (runNodes g h pre (initState store)).statuses,
         (runNodes g h pre (initState store)).log ++ [⟨kid, Verb.update⟩]⟩ := by
    cases hu : h kid Verb.update with
    | some out => exact ⟨_, _, step_update_some hfindk hdepsk hreck' hfpne' hu⟩
    | none => exact ⟨_, _, step_update_none hfindk hdepsk hreck' hfpne' hu⟩
  obtain ⟨rec', st', hstepk⟩ := hstepk
  have hmatch₂ : ∀ n ∈ g, n.id ∈ post → ∃ pid, slookup
      ((⟨(kid, rec') :: (runNodes g h pre (initState store)).store,
         (kid, st') :: (runNodes g h pre (initState store)).statuses,
         (runNodes g h pre (initState store)).log ++ [⟨kid, Verb.update⟩]⟩ : RunState)).store n.id
      = some ⟨fingerprint n, pid, RecStatus.applied⟩ := by
    intro n hn hidpost
    have hnk : n.id ≠ kid := fun hc => hknpost (hc ▸ hidpost)
    obtain ⟨pid, hp⟩ := hmatch n hn hnk
    refine ⟨pid, ?_⟩
    show slookup ((kid, rec') :: (runNodes g h pre (initState store)).store) n.id = _
    rw [slookup_cons_ne _ _ _ _ (fun hc => hnk hc.symm), hstore1]
    exact hp
  have hfrozen := (runNodes_frozen_of_match g h post _ hmatch₂).1
  rw [hsplit, runNodes_append, runNodes, hstepk, hfrozen]
  show (runNodes g h pre (initState store)).log ++ [⟨kid, Verb.update⟩] = [⟨kid, Verb.update⟩]
  rw [hlog1]
  rfl

/-- C8: bumping only the `version` field of one node — all its other
declared properties and every other node unchanged, with the store holding
the `Applied` records of the previous successful apply — causes exactly one
handler invocation in the next apply run: an `update` on that node, and zero
handler calls on every other node (nodes with matching fingerprints are
skipped; any dependents of a failed update are blocked without invocation). -/
theorem claim8_version_bump_single_update
    (g₀ : List NodeDecl) (h : Handlers) (kid v₂ : String) (n₀ : NodeDecl)
    (store : List (String × ApplyRecord)) (order : List String)
    (hn₀ : n₀ ∈ g₀) (hid : n₀.id = kid) (hv : v₂ ≠ n₀.version)
    (hnd : (g₀.map NodeDecl.id).Nodup)
    (ht : topologicalOrder (bumpVersion g₀ kid v₂) = some order)
    (hmatch : ∀ n ∈ g₀, ∃ pid, slookup store n.id
      = some ⟨fingerprint n, pid, RecStatus.applied⟩) :
    (runNodes (bumpVersion g₀ kid v₂) h order (initState store)).log
      = [⟨kid, Verb.update⟩] := by
  have hids : ∀ l : List NodeDecl,
      (l.map (fun n => if n.id = kid
        then (⟨n.id, n.properties, v₂, n.timestamp, n.dependsOn⟩ : NodeDecl)
        else n)).map NodeDecl.id = l.map NodeDecl.id := by
    intro l
    induction l with
    | nil => rfl
    | cons x xs ih =>
      simp only [List.map_cons, ih]
      by_cases hc : x.id = kid <;> simp [hc]
  have hnd' : ((bumpVersion g₀ kid v₂).map NodeDecl.id).Nodup := by
    unfold bumpVersion
    rw [hids g₀]
    exact hnd
  have hn' : (⟨n₀.id, n₀.properties, v₂, n₀.timestamp, n₀.dependsOn⟩ : NodeDecl)
      ∈ bumpVersion g₀ kid v₂ := by
    unfold bumpVersion
    have hmem := List.mem_map_of_mem (fun n : NodeDecl => if n.id = kid
      then (⟨n.id, n.properties, v₂, n.timestamp, n.dependsOn⟩ : NodeDecl) else n) hn₀
    simpa [hid] using hmem
  have hmatch' : ∀ n ∈ bumpVersion g₀ kid v₂, n.id ≠ kid →
      ∃ pid, slookup store n.id = some ⟨fingerprint n, pid, RecStatus.applied⟩ := by
    intro n hn hnk
    unfold bumpVersion at hn
    obtain ⟨m, hm, hfm⟩ := List.mem_map.mp hn
    by_cases hmk : m.id = kid
    · rw [if_pos hmk] at hfm
      exfalso
      apply hnk
      rw [← hfm]
      exact hmk
    · rw [if_neg hmk] at hfm
      rw [← hfm]
      exact hmatch m hm
  obtain ⟨pid₀, hrec₀⟩ := hmatch n₀ hn₀
  rw [hid] at hrec₀
  have hfpne : fingerprint n₀
      ≠ fingerprint (⟨n₀.id, n₀.properties, v₂, n₀.timestamp, n₀.dependsOn⟩ : NodeDecl) :=
    fingerprint_ne_of_version_ne rfl (Ne.symm hv)
  exact run_single_update (bumpVersion g₀ kid v₂) h kid
    ⟨n₀.id, n₀.properties, v₂, n₀.timestamp, n₀.dependsOn⟩ store order hn' hid hnd' ht hmatch'
    ⟨fingerprint n₀, pid₀, hrec₀, hfpne⟩

theorem claim8_witness :
    (runNodes (bumpVersion g8w "b" "2") hOk ["a", "b"] (initState store8w)).log
      = [⟨"b", Verb.update⟩] :=
  claim8_version_bump_single_update g8w hOk "b" "2" ⟨"b", [("m", "w")], "1", "t", ["a"]⟩
    store8w ["a", "b"] (by decide) rfl (by decide) (by decide) rfl
    (by
      intro n hn
      simp only [g8w, List.mem_cons, List.not_mem_nil, or_false] at hn
      rcases hn with rfl | rfl
      · exact ⟨"pa", rfl⟩
      · exact ⟨"pb", rfl⟩)
